import Mathlib

/-!
Verification of the benchmark driver core of the faster-rs repository
(src/benchmark/src/lib.rs): work partitioning via an atomic cursor,
the epoch cooperation cadence, operation-mix policies, input loading,
core-affinity selection, and the throughput computation.
-/

namespace FasterBench

/-! ### Constants (src/benchmark/src/lib.rs lines 19-26) -/

def K_COMPLETE_PENDING_INTERVAL : Nat := 1600
def K_REFRESH_INTERVAL : Nat := 64
def K_CHUNK_SIZE : Nat := 3200
def K_FILE_CHUNK_SIZE : Nat := 131072
def K_INIT_COUNT : Nat := 250000000
def K_TXN_COUNT : Nat := 1000000000
def K_NANOS_PER_SECOND : Nat := 1000000000

/-! ### Operations and operation-mix policies (lines 28-90).
`ThreadRng` is modelled as the value drawn from it: a `Bool` for the
single `gen()` call of `read_upsert5050`, and an arbitrary `Nat` seed for
the policies that ignore their random source. -/

inductive Operation where
  | Read
  | Upsert
  | Rmw
deriving DecidableEq, Repr

def read_upsert5050 (draw : Bool) : Operation :=
  if draw then Operation.Read else Operation.Upsert

def rmw_100 (_r : Nat) : Operation := Operation.Rmw

def upsert_100 (_r : Nat) : Operation := Operation.Upsert

def read_100 (_r : Nat) : Operation := Operation.Read

/-! ### Core affinity (lines 34-41).
A `Core`'s cpuset may be absent (`cpuset()` returns an `Option` that the
code unwraps); `cpuset_for_core` returns `none` exactly where the Rust
code panics: when the topology has no cores (`idx % 0` panics in Rust),
when the indexed core is missing, or when its cpuset is absent. -/

structure Core where
  cpuset : Option Nat
deriving DecidableEq, Repr

structure Topology where
  cores : List Core
deriving DecidableEq, Repr

def cpuset_for_core (topology : Topology) (idx : Nat) : Option Nat :=
  let num_cores := topology.cores.length
  if num_cores = 0 then none
  else
    match topology.cores.get? (idx % num_cores) with
    | some val => val.cpuset
    | none => none

/-! ### The per-chunk index range.
Both `populate_store` (line 175) and `run_benchmark` (line 245) iterate
`for i in chunk_idx..(chunk_idx + K_CHUNK_SIZE)`. -/

def chunkIndices (start : Nat) : List Nat := List.range' start K_CHUNK_SIZE

/-! ### Epoch cooperation cadence (lines 176-181 and 246-251).
The events a worker emits at index `i` before executing its operation:
`refresh()` inside the `i % K_REFRESH_INTERVAL == 0` check, and
`complete_pending(false)` inside the nested
`i % K_COMPLETE_PENDING_INTERVAL == 0` check. -/

inductive Event where
  | BindCore
  | StartSession
  | Refresh
  | DrainPending (wait : Bool)
  | UpsertOp (i : Nat)
  | ReadOp (i : Nat)
  | RmwOp (i : Nat)
  | StopSession
deriving DecidableEq, Repr

def epochEvents (i : Nat) : List Event :=
  if i % K_REFRESH_INTERVAL = 0 then
    if i % K_COMPLETE_PENDING_INTERVAL = 0 then
      [Event.Refresh, Event.DrainPending false]
    else
      [Event.Refresh]
  else
    []

def txnOpEvent (op : Operation) (i : Nat) : Event :=
  match op with
  | Operation.Read => Event.ReadOp i
  | Operation.Upsert => Event.UpsertOp i
  | Operation.Rmw => Event.RmwOp i

/-- Events of one claimed chunk in the transaction phase (lines 245-267):
for each index, the epoch cadence then the classified operation.
`ops i` is the operation the mix policy returns for the random draw made
at index `i`. -/
def txnChunkEvents (ops : Nat → Operation) (start : Nat) : List Event :=
  (chunkIndices start).flatMap fun i => epochEvents i ++ [txnOpEvent (ops i) i]

/-- Trace of one transaction worker (lines 218-284) as a function of the
chunk starts it claimed below the bound: bind the core, start a session,
process the chunks, then the blocking drain and session close. -/
def txnWorker (ops : Nat → Operation) (chunks : List Nat) : List Event :=
  [Event.BindCore, Event.StartSession]
    ++ chunks.flatMap (txnChunkEvents ops)
    ++ [Event.DrainPending true, Event.StopSession]

/-- Events of one claimed chunk in the population phase (lines 174-183):
epoch cadence then an unconditional upsert. -/
def populateChunkEvents (start : Nat) : List Event :=
  (chunkIndices start).flatMap fun i => epochEvents i ++ [Event.UpsertOp i]

/-- Trace of one population worker (lines 161-188). -/
def populateWorker (chunks : List Nat) : List Event :=
  [Event.BindCore, Event.StartSession]
    ++ chunks.flatMap populateChunkEvents
    ++ [Event.DrainPending true, Event.StopSession]

/-! ### Throughput computation (lines 303-304).
Rust integer division panics on a zero divisor, so the final division is
modelled as a checked division returning `none` where the code panics. -/

def checkedDiv (a b : Nat) : Option Nat :=
  if b = 0 then none else some (a / b)

def ops_per_second_per_thread (reads upserts rmws nanos : Nat) : Option Nat :=
  checkedDiv (reads + upserts + rmws) (nanos / K_NANOS_PER_SECOND)

/-- The spec's throughput formula, stated over exact rationals:
total operations divided by total thread-seconds
(`(total_reads + total_upserts + total_rmws) / (total_elapsed_nanoseconds / 1e9)`). -/
def throughputSpec (ops nanos : Nat) : ℚ :=
  (ops : ℚ) / ((nanos : ℚ) / (1000000000 : ℚ))

/-! ### Loading the key files (lines 92-148).
A file is a byte sequence. Each `read_at` call fills a
`K_FILE_CHUNK_SIZE`-byte buffer (or what remains of the file), the loop
decodes `bytes_read / 8` big-endian 64-bit keys from it, and stops on the
first read shorter than the buffer. -/

def beBytesToNat (bs : List Nat) : Nat :=
  bs.foldl (fun acc b => acc * 256 + b) 0

/-- The keys decoded from one buffer fill of `bytes_read` bytes:
`for i in 0..(bytes_read / 8)` take bytes `[i*8, (i+1)*8)` big-endian. -/
def parseChunk (chunk : List Nat) : List Nat :=
  (List.range (chunk.length / 8)).map fun i => beBytesToNat ((chunk.drop (i * 8)).take 8)

/-- The whole reading loop of one file (lines 103-116 and 128-141). -/
def readKeys (file : List Nat) : List Nat :=
  if _h : file.length < K_FILE_CHUNK_SIZE then
    parseChunk file
  else
    parseChunk (file.take K_FILE_CHUNK_SIZE) ++ readKeys (file.drop K_FILE_CHUNK_SIZE)
termination_by file.length
decreasing_by simp [K_FILE_CHUNK_SIZE] at *; omega

/-- `load_files` over the two files' bytes; `none` models the panics at
lines 117-119 and 142-144 (count mismatch for the respective phase). -/
def load_files (loadBytes runBytes : List Nat) : Option (List Nat × List Nat) :=
  let init_keys := readKeys loadBytes
  if K_INIT_COUNT ≠ init_keys.length then none
  else
    let run_keys := readKeys runBytes
    if K_TXN_COUNT ≠ run_keys.length then none
    else some (init_keys, run_keys)

/-! ### The transaction driver's shared cursor machine (lines 239-268).
The shared state is the atomic cursor `idx` plus each worker's exit flag
and thread-local counters. One step is one `fetch_add` claim by one
still-running worker, followed (when the claimed start is below
`K_TXN_COUNT`) by that worker processing the whole chunk into its
counters, exactly as the `match op_allocator(rng)` arms increment
`reads` / `upserts` / `rmws`. A schedule is the interleaving order of the
claims. -/

def bumpCounts (c : Nat × Nat × Nat) (op : Operation) : Nat × Nat × Nat :=
  match op with
  | Operation.Read => (c.1 + 1, c.2.1, c.2.2)
  | Operation.Upsert => (c.1, c.2.1 + 1, c.2.2)
  | Operation.Rmw => (c.1, c.2.1, c.2.2 + 1)

/-- A worker's counters after processing one claimed chunk starting at
`chunk_idx` (lines 245-267), given its counters before. -/
def processChunk (ops : Nat → Operation) (chunk_idx : Nat) (c : Nat × Nat × Nat) :
    Nat × Nat × Nat :=
  (chunkIndices chunk_idx).foldl (fun acc i => bumpCounts acc (ops i)) c

structure BenchState (n : Nat) where
  cursor : Nat
  done : Fin n → Bool
  counts : Fin n → Nat × Nat × Nat

def initState (n : Nat) : BenchState n :=
  { cursor := 0, done := fun _ => false, counts := fun _ => (0, 0, 0) }

/-- One claim by worker `w`: `fetch_add(K_CHUNK_SIZE)` returns the old
cursor; a start at or past `K_TXN_COUNT` makes the worker break out of
its loop (line 241-244), otherwise it processes the chunk. A worker that
has already exited claims nothing. -/
def benchStep {n : Nat} (ops : Nat → Operation) (s : BenchState n) (w : Fin n) :
    BenchState n :=
  if s.done w then s
  else
    let chunk_idx := s.cursor
    if K_TXN_COUNT ≤ chunk_idx then
      { s with cursor := s.cursor + K_CHUNK_SIZE, done := Function.update s.done w true }
    else
      { s with cursor := s.cursor + K_CHUNK_SIZE,
               counts := Function.update s.counts w (processChunk ops chunk_idx (s.counts w)) }

def benchRun (ops : Nat → Operation) (n : Nat) (sched : List (Fin n)) : BenchState n :=
  sched.foldl (benchStep ops) (initState n)

def totalOps (c : Nat × Nat × Nat) : Nat := c.1 + c.2.1 + c.2.2

/-- `reads + upserts + rmws` summed across all workers (lines 294-303). -/
def sumCounts {n : Nat} (s : BenchState n) : Nat :=
  Finset.univ.sum fun w => totalOps (s.counts w)

/-- Invariant of the transaction machine: the cursor is always a multiple
of the chunk size, the operations executed so far are exactly the claimed
indices below the bound, and a worker only exits after the cursor has
reached the bound. -/
def benchInv {n : Nat} (s : BenchState n) : Prop :=
  s.cursor % K_CHUNK_SIZE = 0 ∧
  sumCounts s = min s.cursor K_TXN_COUNT ∧
  ∀ w, s.done w = true → K_TXN_COUNT ≤ s.cursor

/-- The single worker of a one-thread run. -/
def w0 : Fin 1 := ⟨0, Nat.one_pos⟩

/-! ### Helper lemmas -/

theorem mem_chunkIndices {i start : Nat} :
    i ∈ chunkIndices start ↔ start ≤ i ∧ i < start + K_CHUNK_SIZE := by
  simp [chunkIndices, List.mem_range'_1]

theorem length_chunkIndices (start : Nat) : (chunkIndices start).length = K_CHUNK_SIZE := by
  simp [chunkIndices]

theorem chunk_le_of_lt {a b : Nat} (ha : a % K_CHUNK_SIZE = 0)
    (hb : b % K_CHUNK_SIZE = 0) (h : a < b) : a + K_CHUNK_SIZE ≤ b := by
  have hda : K_CHUNK_SIZE ∣ a := Nat.dvd_of_mod_eq_zero ha
  have hdb : K_CHUNK_SIZE ∣ b := Nat.dvd_of_mod_eq_zero hb
  have hd : K_CHUNK_SIZE ∣ b - a := Nat.dvd_sub' hdb hda
  have h0 : 0 < b - a := by omega
  have := Nat.le_of_dvd h0 hd
  omega

theorem totalOps_bumpCounts (c : Nat × Nat × Nat) (op : Operation) :
    totalOps (bumpCounts c op) = totalOps c + 1 := by
  cases op <;> simp [bumpCounts, totalOps] <;> omega

theorem totalOps_foldl (ops : Nat → Operation) (l : List Nat) (c : Nat × Nat × Nat) :
    totalOps (l.foldl (fun acc i => bumpCounts acc (ops i)) c) = totalOps c + l.length := by
  induction l generalizing c with
  | nil => simp
  | cons x xs ih => simp [List.foldl_cons, ih, totalOps_bumpCounts]; omega

theorem totalOps_processChunk (ops : Nat → Operation) (start : Nat) (c : Nat × Nat × Nat) :
    totalOps (processChunk ops start c) = totalOps c + K_CHUNK_SIZE := by
  simp [processChunk, totalOps_foldl, length_chunkIndices]

theorem txn_bound_mod : K_TXN_COUNT % K_CHUNK_SIZE = 0 := by decide

theorem init_bound_mod : K_INIT_COUNT % K_CHUNK_SIZE = 0 := by decide

theorem sumCounts_update {n : Nat} (s : BenchState n) (w : Fin n) (c : Nat × Nat × Nat) :
    (Finset.univ.sum fun w' => totalOps (Function.update s.counts w c w')) =
      sumCounts s - totalOps (s.counts w) + totalOps c := by
  have hfun : (fun w' => totalOps (Function.update s.counts w c w')) =
      Function.update (fun w' => totalOps (s.counts w')) w (totalOps c) := by
    funext j
    exact Function.apply_update (fun _ x => totalOps x) s.counts w c j
  rw [hfun, Finset.sum_update_of_mem (Finset.mem_univ w)]
  have hsplit : sumCounts s =
      Finset.sum (Finset.univ \ {w}) (fun w' => totalOps (s.counts w')) + totalOps (s.counts w) :=
    Finset.sum_eq_sum_diff_singleton_add (Finset.mem_univ w) _
  omega

theorem benchStep_done {n : Nat} (ops : Nat → Operation) (s : BenchState n) (w : Fin n)
    (h : s.done w = true) : benchStep ops s w = s := by
  simp [benchStep, h]

theorem benchStep_exhaust {n : Nat} (ops : Nat → Operation) (s : BenchState n) (w : Fin n)
    (h : s.done w = false) (h2 : K_TXN_COUNT ≤ s.cursor) :
    benchStep ops s w =
      { s with cursor := s.cursor + K_CHUNK_SIZE, done := Function.update s.done w true } := by
  simp [benchStep, h, h2]

theorem benchStep_work {n : Nat} (ops : Nat → Operation) (s : BenchState n) (w : Fin n)
    (h : s.done w = false) (h2 : ¬ K_TXN_COUNT ≤ s.cursor) :
    benchStep ops s w =
      { s with cursor := s.cursor + K_CHUNK_SIZE,
               counts := Function.update s.counts w
                 (processChunk ops s.cursor (s.counts w)) } := by
  simp [benchStep, h, h2]

theorem sumCounts_set_done {n : Nat} (s : BenchState n) (c' : Nat) (d : Fin n → Bool) :
    sumCounts { s with cursor := c', done := d } = sumCounts s := rfl

theorem sumCounts_set_counts {n : Nat} (s : BenchState n) (c' : Nat)
    (u : Fin n → Nat × Nat × Nat) :
    sumCounts { s with cursor := c', counts := u } =
      Finset.univ.sum fun w' => totalOps (u w') := rfl

theorem benchStep_inv {n : Nat} (ops : Nat → Operation) (s : BenchState n) (w : Fin n)
    (h : benchInv s) : benchInv (benchStep ops s w) := by
  obtain ⟨hmod, hsum, hdone⟩ := h
  by_cases hw : s.done w
  · rw [benchStep_done ops s w hw]
    exact ⟨hmod, hsum, hdone⟩
  · rw [Bool.not_eq_true] at hw
    by_cases hN : K_TXN_COUNT ≤ s.cursor
    · rw [benchStep_exhaust ops s w hw hN]
      refine ⟨?_, ?_, ?_⟩
      · show (s.cursor + K_CHUNK_SIZE) % K_CHUNK_SIZE = 0
        simp [Nat.add_mod, hmod]
      · rw [sumCounts_set_done, hsum]
        show min s.cursor K_TXN_COUNT = min (s.cursor + K_CHUNK_SIZE) K_TXN_COUNT
        rw [min_eq_right hN, min_eq_right (le_trans hN (Nat.le_add_right _ _))]
      · intro w' _
        exact le_trans hN (Nat.le_add_right _ _)
    · have hlt : s.cursor < K_TXN_COUNT := Nat.lt_of_not_le hN
      have hstep : s.cursor + K_CHUNK_SIZE ≤ K_TXN_COUNT :=
        chunk_le_of_lt hmod txn_bound_mod hlt
      rw [benchStep_work ops s w hw hN]
      refine ⟨?_, ?_, ?_⟩
      · show (s.cursor + K_CHUNK_SIZE) % K_CHUNK_SIZE = 0
        simp [Nat.add_mod, hmod]
      · rw [sumCounts_set_counts, sumCounts_update s w (processChunk ops s.cursor (s.counts w))]
        show sumCounts s - totalOps (s.counts w) + totalOps (processChunk ops s.cursor (s.counts w))
          = min (s.cursor + K_CHUNK_SIZE) K_TXN_COUNT
        have hproc := totalOps_processChunk ops s.cursor (s.counts w)
        have hcw : totalOps (s.counts w) ≤ sumCounts s := by
          unfold sumCounts
          exact Finset.single_le_sum (f := fun w' => totalOps (s.counts w'))
            (fun i _ => Nat.zero_le _) (Finset.mem_univ w)
        have hmin1 : min s.cursor K_TXN_COUNT = s.cursor := min_eq_left (le_of_lt hlt)
        have hmin2 : min (s.cursor + K_CHUNK_SIZE) K_TXN_COUNT = s.cursor + K_CHUNK_SIZE :=
          min_eq_left hstep
        omega
      · intro w' hw'
        have := hdone w' hw'
        exact le_trans this (Nat.le_add_right _ _)

theorem benchInv_init (n : Nat) : benchInv (initState n) := by
  refine ⟨by simp [initState], ?_, ?_⟩
  · simp [initState, sumCounts, totalOps]
  · intro w hw
    simp [initState] at hw

theorem benchInv_foldl {n : Nat} (ops : Nat → Operation) (sched : List (Fin n)) :
    ∀ s : BenchState n, benchInv s → benchInv (sched.foldl (benchStep ops) s) := by
  induction sched with
  | nil => intro s hs; simpa using hs
  | cons x xs ih =>
    intro s hs
    simpa [List.foldl_cons] using ih _ (benchStep_inv ops s x hs)

theorem benchRun_inv (ops : Nat → Operation) (n : Nat) (sched : List (Fin n)) :
    benchInv (benchRun ops n sched) :=
  benchInv_foldl ops sched _ (benchInv_init n)

theorem benchStep_cursor_le {n : Nat} (ops : Nat → Operation) (s : BenchState n) (w : Fin n) :
    s.cursor ≤ (benchStep ops s w).cursor := by
  by_cases hw : s.done w
  · simp [benchStep, hw]
  · by_cases hN : K_TXN_COUNT ≤ s.cursor <;> simp [benchStep, hw, hN]

theorem foldl_cursor_le {n : Nat} (ops : Nat → Operation) (l : List (Fin n)) :
    ∀ s : BenchState n, s.cursor ≤ (l.foldl (benchStep ops) s).cursor := by
  induction l with
  | nil => intro s; simp
  | cons x xs ih =>
    intro s
    calc s.cursor ≤ (benchStep ops s x).cursor := benchStep_cursor_le ops s x
      _ ≤ _ := by simpa [List.foldl_cons] using ih (benchStep ops s x)

theorem benchRun_append {n : Nat} (ops : Nat → Operation) (sched extra : List (Fin n)) :
    benchRun ops n (sched ++ extra) = extra.foldl (benchStep ops) (benchRun ops n sched) := by
  simp [benchRun, List.foldl_append]

theorem foldl_single {n : Nat} (ops : Nat → Operation) (s : BenchState n) (w : Fin n) :
    List.foldl (benchStep ops) s [w] = benchStep ops s w := rfl

theorem benchRun_replicate (ops : Nat → Operation) :
    ∀ m, m ≤ 312500 →
      (benchRun ops 1 (List.replicate m w0)).cursor = m * K_CHUNK_SIZE ∧
      ∀ w : Fin 1, (benchRun ops 1 (List.replicate m w0)).done w = false := by
  intro m
  induction m with
  | zero =>
    intro _
    exact ⟨rfl, fun _ => rfl⟩
  | succ k ih =>
    intro hk
    obtain ⟨hc, hd⟩ := ih (by omega)
    rw [List.replicate_succ' k w0, benchRun_append, foldl_single]
    set s := benchRun ops 1 (List.replicate k w0) with hs
    have hlt : ¬ K_TXN_COUNT ≤ s.cursor := by
      rw [hc]
      have hk' : k * K_CHUNK_SIZE ≤ 312499 * K_CHUNK_SIZE :=
        Nat.mul_le_mul_right _ (by omega)
      have : (312499 : Nat) * K_CHUNK_SIZE < K_TXN_COUNT := by decide
      omega
    rw [benchStep_work ops s w0 (hd w0) hlt]
    refine ⟨?_, ?_⟩
    · show s.cursor + K_CHUNK_SIZE = (k + 1) * K_CHUNK_SIZE
      rw [hc]; ring
    · intro w
      exact hd w

theorem benchRun_replicate_exhausted (ops : Nat → Operation) :
    (∀ w : Fin 1, (benchRun ops 1 (List.replicate 312501 w0)).done w = true) ∧
    K_TXN_COUNT ≤ (benchRun ops 1 (List.replicate 312501 w0)).cursor := by
  obtain ⟨hc, hd⟩ := benchRun_replicate ops 312500 (le_refl _)
  have h1 : (312501 : Nat) = 312500 + 1 := by norm_num
  have hrepl : List.replicate 312501 w0 = List.replicate 312500 w0 ++ [w0] := by
    rw [h1]
    exact List.replicate_succ' 312500 w0
  rw [hrepl, benchRun_append, foldl_single]
  set s := benchRun ops 1 (List.replicate 312500 w0) with hs
  have hge : K_TXN_COUNT ≤ s.cursor := by
    rw [hc]
    decide
  rw [benchStep_exhaust ops s w0 (hd w0) hge]
  refine ⟨?_, ?_⟩
  · intro w
    have hw : w = w0 := Subsingleton.elim w w0
    rw [hw]
    show Function.update s.done w0 true w0 = true
    simp
  · show K_TXN_COUNT ≤ s.cursor + K_CHUNK_SIZE
    omega

/-! ### The claims -/

/-- C1: in both the population and the transaction phase, a worker that
claims a chunk whose start is below the phase bound (starts are always
multiples of the chunk size) iterates only over indices below the bound:
clipping the loop's index list to the bound changes nothing, and no
iterated index reaches or passes the Key Sequence bound. -/
theorem chunk_iteration_clipped (start N : Nat)
    (hN : N = K_INIT_COUNT ∨ N = K_TXN_COUNT)
    (hstart : start % K_CHUNK_SIZE = 0) (hlt : start < N) :
    (∀ i ∈ chunkIndices start, i < N) ∧
      (chunkIndices start).filter (fun i => decide (i < N)) = chunkIndices start := by
  have hNmod : N % K_CHUNK_SIZE = 0 := by
    rcases hN with h | h
    · rw [h]; exact init_bound_mod
    · rw [h]; exact txn_bound_mod
  have hub : start + K_CHUNK_SIZE ≤ N := chunk_le_of_lt hstart hNmod hlt
  have hall : ∀ i ∈ chunkIndices start, i < N := by
    intro i hi
    obtain ⟨h1, h2⟩ := mem_chunkIndices.mp hi
    omega
  refine ⟨hall, ?_⟩
  rw [List.filter_eq_self]
  intro a ha
  simpa using hall a ha

/-- Witness for C1 at the first chunk of the population phase. -/
theorem chunk_iteration_clipped_witness :
    (0 : Nat) % K_CHUNK_SIZE = 0 ∧ 0 < K_INIT_COUNT ∧
      ∀ i ∈ chunkIndices 0, i < K_INIT_COUNT :=
  ⟨by decide, by decide,
    (chunk_iteration_clipped 0 K_INIT_COUNT (Or.inl rfl) (by decide) (by decide)).1⟩

/-- C2: for every completed transaction run (every worker has observed
cursor exhaustion and exited), the read, upsert and rmw counters summed
across all workers equal exactly K_TXN_COUNT: each of the K_TXN_COUNT
indices produced exactly one classified, executed, counted operation. -/
theorem counter_conservation (ops : Nat → Operation) (n : Nat) (sched : List (Fin n))
    (hn : 0 < n) (hdone : ∀ w, (benchRun ops n sched).done w = true) :
    sumCounts (benchRun ops n sched) = K_TXN_COUNT := by
  obtain ⟨hmod, hsum, hdoneInv⟩ := benchRun_inv ops n sched
  have hge : K_TXN_COUNT ≤ (benchRun ops n sched).cursor :=
    hdoneInv ⟨0, hn⟩ (hdone ⟨0, hn⟩)
  rw [hsum, min_eq_right hge]

/-- Witness for C2: a completed single-worker run. -/
theorem counter_conservation_witness :
    sumCounts (benchRun (fun _ => Operation.Read) 1 (List.replicate 312501 w0)) =
      K_TXN_COUNT :=
  counter_conservation (fun _ => Operation.Read) 1 (List.replicate 312501 w0)
    Nat.one_pos (benchRun_replicate_exhausted (fun _ => Operation.Read)).1

/-- C5: the work cursor is monotonic: if after some prefix of claims the
cursor has reached the phase bound, then after any further claims it is
still at or past the bound, so every subsequent claim also returns a
start at or past the bound. -/
theorem cursor_exhaustion_monotone (ops : Nat → Operation) (n : Nat)
    (sched extra : List (Fin n))
    (h : K_TXN_COUNT ≤ (benchRun ops n sched).cursor) :
    K_TXN_COUNT ≤ (benchRun ops n (sched ++ extra)).cursor := by
  rw [benchRun_append]
  exact le_trans h (foldl_cursor_le ops extra _)

/-- Witness for C5: one claim past an exhausted single-worker run. -/
theorem cursor_exhaustion_monotone_witness :
    K_TXN_COUNT ≤
      (benchRun (fun _ => Operation.Read) 1 (List.replicate 312501 w0 ++ [w0])).cursor :=
  cursor_exhaustion_monotone (fun _ => Operation.Read) 1 (List.replicate 312501 w0) [w0]
    (benchRun_replicate_exhausted (fun _ => Operation.Read)).2

/-- C6: the always-Rmw, always-Upsert and always-Read operation-mix
policies return their fixed operation kind for every value of the random
source argument. -/
theorem fixed_mix_policies_exact :
    ∀ r : Nat, rmw_100 r = Operation.Rmw ∧ upsert_100 r = Operation.Upsert ∧
      read_100 r = Operation.Read :=
  fun _ => ⟨rfl, rfl, rfl⟩

/-- C10: if the summed elapsed time of all workers is below one second,
the whole-second truncation of the nanosecond total is zero and the
throughput computation divides by zero, a panic in Rust (modelled as
none), instead of returning a figure. -/
theorem throughput_zero_divisor (reads upserts rmws nanos : Nat)
    (h : nanos < K_NANOS_PER_SECOND) :
    ops_per_second_per_thread reads upserts rmws nanos = none := by
  unfold ops_per_second_per_thread checkedDiv
  rw [Nat.div_eq_of_lt h]
  simp

/-- Witness for C10 just below the one-second boundary. -/
theorem throughput_zero_divisor_witness :
    ops_per_second_per_thread 12 34 56 999999999 = none :=
  throughput_zero_divisor 12 34 56 999999999 (by decide)

/-- C4: within a worker's iteration the refresh call fires exactly at
indices divisible by K_REFRESH_INTERVAL and the non-blocking drain
exactly at indices divisible by K_COMPLETE_PENDING_INTERVAL, the nested
placement losing none because the coarser interval is a multiple of the
finer one; and after its chunks are exhausted the worker performs the
blocking drain and only then closes its session. -/
theorem epoch_cadence_and_final_drain :
    (∀ i : Nat, Event.Refresh ∈ epochEvents i ↔ i % K_REFRESH_INTERVAL = 0) ∧
    (∀ i : Nat,
      Event.DrainPending false ∈ epochEvents i ↔ i % K_COMPLETE_PENDING_INTERVAL = 0) ∧
    K_COMPLETE_PENDING_INTERVAL % K_REFRESH_INTERVAL = 0 ∧
    (∀ (ops : Nat → Operation) (chunks : List Nat), ∃ pre,
      txnWorker ops chunks = pre ++ [Event.DrainPending true, Event.StopSession]) := by
  have hmul : ∀ i : Nat, i % K_COMPLETE_PENDING_INTERVAL = 0 → i % K_REFRESH_INTERVAL = 0 := by
    intro i h
    simp only [K_COMPLETE_PENDING_INTERVAL] at h
    simp only [K_REFRESH_INTERVAL]
    omega
  refine ⟨?_, ?_, by decide, ?_⟩
  · intro i
    unfold epochEvents
    by_cases h64 : i % K_REFRESH_INTERVAL = 0
    · by_cases h1600 : i % K_COMPLETE_PENDING_INTERVAL = 0 <;> simp [h64, h1600]
    · have h1600 : ¬ i % K_COMPLETE_PENDING_INTERVAL = 0 := fun hc => h64 (hmul i hc)
      simp [h64]
  · intro i
    unfold epochEvents
    by_cases h64 : i % K_REFRESH_INTERVAL = 0
    · by_cases h1600 : i % K_COMPLETE_PENDING_INTERVAL = 0 <;> simp [h64, h1600]
    · have h1600 : ¬ i % K_COMPLETE_PENDING_INTERVAL = 0 := fun hc => h64 (hmul i hc)
      simp [h64, h1600]
  · intro ops chunks
    refine ⟨[Event.BindCore, Event.StartSession] ++ chunks.flatMap (txnChunkEvents ops), ?_⟩
    simp [txnWorker]

/-- C7: with C > 0 cores discovered from the host topology, the binder
selects the cpuset of core (idx mod C); the absent-cpuset and
empty-topology failure cases yield the panic value none with no fallback;
and both worker traces bind the core before the store session is
opened. -/
theorem core_affinity_binding (topo : Topology) (idx : Nat)
    (h : 0 < topo.cores.length) :
    cpuset_for_core topo idx =
      (topo.cores.get ⟨idx % topo.cores.length, Nat.mod_lt idx h⟩).cpuset ∧
    (∀ (ops : Nat → Operation) (chunks : List Nat), ∃ rest,
      txnWorker ops chunks = Event.BindCore :: Event.StartSession :: rest) ∧
    (∀ chunks : List Nat, ∃ rest,
      populateWorker chunks = Event.BindCore :: Event.StartSession :: rest) := by
  refine ⟨?_, ?_, ?_⟩
  · have hne : ¬ topo.cores.length = 0 := by omega
    simp only [cpuset_for_core]
    rw [if_neg hne, List.get?_eq_get (Nat.mod_lt idx h)]
  · intro ops chunks
    exact ⟨_, rfl⟩
  · intro chunks
    exact ⟨_, rfl⟩

/-- Witness for C7: a two-core topology with index 5 selects core 1. -/
theorem core_affinity_binding_witness :
    cpuset_for_core (Topology.mk [Core.mk (some 7), Core.mk (some 9)]) 5 = some 9 := by
  have h := (core_affinity_binding
    (Topology.mk [Core.mk (some 7), Core.mk (some 9)]) 5 (by decide)).1
  simpa using h

/-- C8: load_files fails exactly when a file's decoded key count differs
from its phase's expected count (the load file against K_INIT_COUNT, the
run file against K_TXN_COUNT), the check happening on the fully loaded
key list; on success the returned vectors are the decoded key lists, so
their lengths equal the expected counts exactly. -/
theorem load_files_length_check (loadBytes runBytes : List Nat) :
    ((load_files loadBytes runBytes).isSome = true ↔
      ((readKeys loadBytes).length = K_INIT_COUNT ∧
        (readKeys runBytes).length = K_TXN_COUNT)) ∧
    ((load_files loadBytes runBytes).map (fun p => (p.1.length, p.2.length)) =
      (load_files loadBytes runBytes).map (fun _ => (K_INIT_COUNT, K_TXN_COUNT))) := by
  unfold load_files
  by_cases h1 : K_INIT_COUNT = (readKeys loadBytes).length
  · by_cases h2 : K_TXN_COUNT = (readKeys runBytes).length
    · rw [if_neg (by simpa using h1), if_neg (by simpa using h2)]
      constructor
      · simp [h1.symm, h2.symm]
      · simp [h1.symm, h2.symm]
    · rw [if_neg (by simpa using h1), if_pos (by simpa using h2)]
      constructor
      · simp
        intro _
        exact fun hc => h2 hc.symm
      · simp
  · rw [if_pos (by simpa using h1)]
    constructor
    · simp
      intro hc
      exact absurd hc.symm h1
    · simp

/-- C9: both phase bounds are exact multiples of the chunk size, so every
chunk claimed with a start below a phase bound lies entirely inside the
bound, and every indexed key lookup of the unclipped per-chunk loops
succeeds on a key sequence of the phase's length. -/
theorem chunk_access_in_bounds :
    K_INIT_COUNT % K_CHUNK_SIZE = 0 ∧ K_TXN_COUNT % K_CHUNK_SIZE = 0 ∧
    ∀ (keys : List Nat) (N start : Nat), (N = K_INIT_COUNT ∨ N = K_TXN_COUNT) →
      keys.length = N → start % K_CHUNK_SIZE = 0 → start < N →
      ∀ i ∈ chunkIndices start, (keys.get? i).isSome = true := by
  refine ⟨init_bound_mod, txn_bound_mod, ?_⟩
  intro keys N start hN hlen hstart hlt i hi
  have hNmod : N % K_CHUNK_SIZE = 0 := by
    rcases hN with h | h
    · rw [h]; exact init_bound_mod
    · rw [h]; exact txn_bound_mod
  have hub : start + K_CHUNK_SIZE ≤ N := chunk_le_of_lt hstart hNmod hlt
  obtain ⟨hlo, hhi⟩ := mem_chunkIndices.mp hi
  have hik : i < keys.length := by omega
  simp [List.getElem?_eq_getElem hik]

/-- Witness for C9 on a key sequence of the population phase's length. -/
theorem chunk_access_in_bounds_witness :
    (List.replicate K_INIT_COUNT (0 : Nat)).length = K_INIT_COUNT ∧
      ∀ i ∈ chunkIndices 0, ((List.replicate K_INIT_COUNT (0 : Nat)).get? i).isSome = true :=
  ⟨List.length_replicate K_INIT_COUNT 0,
    chunk_access_in_bounds.2.2 (List.replicate K_INIT_COUNT 0) K_INIT_COUNT 0
      (Or.inl rfl) (List.length_replicate K_INIT_COUNT 0) (by decide) (by decide)⟩

/-- C3 counterexample: with 5000 operations and 1.5e9 summed elapsed
nanoseconds the code computes 5000 ops/second, while total operations
divided by total thread-seconds is 10000/3, so the claimed exact
equality with the real quotient fails. -/
theorem throughput_formula_counterexample :
    ops_per_second_per_thread 0 5000 0 1500000000 = some 5000 ∧
    throughputSpec 5000 1500000000 ≠ ((5000 : Nat) : ℚ) := by
  constructor
  · decide
  · norm_num [throughputSpec]

/-- C3 amended: the code integer-divides the operation total by the
whole-second truncation of the nanosecond total; whenever the elapsed
nanoseconds are a positive whole number of seconds that divides the
operation total, this equals the spec's quotient of total operations by
total thread-seconds exactly. -/
theorem throughput_exact_when_divisible (reads upserts rmws nanos : Nat)
    (h1 : K_NANOS_PER_SECOND ∣ nanos) (h2 : 0 < nanos / K_NANOS_PER_SECOND)
    (h3 : nanos / K_NANOS_PER_SECOND ∣ (reads + upserts + rmws)) :
    ops_per_second_per_thread reads upserts rmws nanos =
      some ((reads + upserts + rmws) / (nanos / K_NANOS_PER_SECOND)) ∧
    (((reads + upserts + rmws) / (nanos / K_NANOS_PER_SECOND) : Nat) : ℚ) =
      throughputSpec (reads + upserts + rmws) nanos := by
  constructor
  · unfold ops_per_second_per_thread checkedDiv
    rw [if_neg (by omega)]
  · have htpos : ((nanos / K_NANOS_PER_SECOND : Nat) : ℚ) ≠ 0 := by
      exact_mod_cast Nat.pos_iff_ne_zero.mp h2
    rw [Nat.cast_div h3 htpos]
    unfold throughputSpec
    obtain ⟨s, hs⟩ := h1
    have hK : (K_NANOS_PER_SECOND : Nat) = 1000000000 := rfl
    have hts : nanos / K_NANOS_PER_SECOND = s := by
      rw [hs]
      exact Nat.mul_div_cancel_left s (by rw [hK]; norm_num)
    have hcast : ((nanos : ℚ) / 1000000000) = ((nanos / K_NANOS_PER_SECOND : Nat) : ℚ) := by
      rw [hts, hs, hK]
      push_cast
      ring
    rw [hcast]

/-- Witness for C3's amended claim: 5000 operations in two whole
seconds. -/
theorem throughput_exact_when_divisible_witness :
    ops_per_second_per_thread 5000 0 0 2000000000 =
      some ((5000 + 0 + 0) / (2000000000 / K_NANOS_PER_SECOND)) :=
  (throughput_exact_when_divisible 5000 0 0 2000000000 ⟨2, rfl⟩ (by decide) (by decide)).1

end FasterBench
